import Mathlib

/-!
# trailcamai: retry gates, frame aggregation and routing

A shallow embedding of `main.go` (and the frame sampler of `img.go`) of
`cdzombak/trailcamai`, followed by theorems about it.

Conventions of the embedding.

* A Go `string` that reaches this code was decoded from JSON, hence is valid
  UTF-8; it is modelled by its sequence of runes, `List Char`.
* A Go `int` is 64 bits wide.  The only arithmetic on scores is comparison and
  `max`, which cannot overflow, so scores are `Int`.
* The outside world (the model server, `strconv.Atoi`, the file system) is
  modelled by the values it hands back: a gate receives the outcome of its
  n-th attempt as `world n`.
* `map[string]bool` with all values `true` is modelled by the list of its keys
  without repetition.  The order in which `range` visits the keys is not
  specified by Go; it is an explicit argument `rangeOrder`.
-/

namespace Trailcamai

/-! ## Go runtime and library functions used by `main.go` -/

/-- Go strings, as rune sequences. -/
abbrev GoString := List Char

/-- A non-nil Go `error` value: the name of its dynamic type, as printed by
`reflect.TypeOf(err).String()`, its message, and the dynamic types of the
errors reached from it by successive calls of `Unwrap()` (none for a value
without that method). -/
structure GoError where
  typ : String
  msg : String
  unwrapped : List String
deriving DecidableEq, Repr

/-- `errors.New(msg)`: a value of dynamic type `*errors.errorString`, which wraps nothing. -/
def errorsNew (msg : String) : GoError := ⟨"*errors.errorString", msg, []⟩

/-- `var errTryQualityAgain = errors.New("got low quality; try again")`. -/
def errTryQualityAgain : GoError := errorsNew "got low quality; try again"

/-- `var errTryClassifyingAgain = errors.New("got unknown or none; try classifying again")`. -/
def errTryClassifyingAgain : GoError := errorsNew "got unknown or none; try classifying again"

/-- What `retry.Do` leaves behind: the variables captured by the closure, the
number of times the closure ran, and the returned error (`none` is `nil`,
`some log` is the `retry.Error` holding the error of every attempt). -/
structure RetryResult (σ : Type) where
  state : σ
  calls : Nat
  err : Option (List GoError)
deriving DecidableEq, Repr

/-- The loop of `retry.Do`.  `k` attempts remain, `n` were made.  No `RetryIf`
option is given in `main.go`, so every non-nil error is retried; the function
returns `nil` at the first attempt without error, and the whole error log once
the attempts are used up. -/
def retryLoop {σ : Type} (f : Nat → σ → σ × Option GoError) :
    Nat → Nat → σ → List GoError → RetryResult σ
  | 0, n, s, errorLog => ⟨s, n, some errorLog⟩
  | k + 1, n, s, errorLog =>
    match f n s with
    | (s', none) => ⟨s', n + 1, none⟩
    | (s', some e) => retryLoop f k (n + 1) s' (errorLog ++ [e])

/-- `retry.Do(f, retry.Attempts(attempts), retry.Delay(...))`; `f n s` is the
n-th run of the closure on captured state `s`. -/
def retryDo {σ : Type} (f : Nat → σ → σ × Option GoError) (attempts : Nat) (s : σ) :
    RetryResult σ :=
  retryLoop f attempts 0 s []

/-- `errwrap.ContainsType(err, v)`: `errwrap.Walk` visits `err`, the errors a
`retry.Error` lists through `WrappedErrors()` and, since errwrap 1.1.0, the
errors reached from each of them through `Unwrap()`; the result is whether a
visited error has the same dynamic type as `v`.  (Before 1.1.0 `Unwrap()` is
not followed, which is the case `unwrapped = []`.) -/
def containsType (err : Option (List GoError)) (v : GoError) : Bool :=
  match err with
  | none => false
  | some errorLog =>
    "retry.Error" == v.typ ||
      errorLog.any (fun e => e.typ == v.typ || e.unwrapped.any (fun t => t == v.typ))

/-- `unicode.IsSpace`. -/
def unicodeIsSpace (c : Char) : Bool :=
  let r := c.toNat
  if r ≤ 0xFF then
    r == 0x09 || r == 0x0A || r == 0x0B || r == 0x0C || r == 0x0D || r == 0x20
      || r == 0x85 || r == 0xA0
  else
    r == 0x1680 || (0x2000 ≤ r && r ≤ 0x200A) || r == 0x2028 || r == 0x2029
      || r == 0x202F || r == 0x205F || r == 0x3000

/-- `strings.TrimSpace`. -/
def stringsTrimSpace (s : GoString) : GoString :=
  (s.dropWhile unicodeIsSpace).rdropWhile unicodeIsSpace

/-- `unicode.ToLower`.  The ASCII range is handled inline as in the library;
above it the library consults its case tables (`unicode.To(unicode.LowerCase, r)`),
which are the argument `caseTable`. -/
def unicodeToLower (caseTable : Char → Char) (c : Char) : Char :=
  if c.toNat ≤ 0x7F then
    if 'A'.toNat ≤ c.toNat ∧ c.toNat ≤ 'Z'.toNat then
      Char.ofNat (c.toNat + ('a'.toNat - 'A'.toNat))
    else c
  else caseTable c

/-- `strings.ToLower`. -/
def stringsToLower (caseTable : Char → Char) (s : GoString) : GoString :=
  s.map (unicodeToLower caseTable)

/-- `strings.Split(s, " ")`: the pieces of `s` between single spaces. -/
def stringsSplit : GoString → List GoString
  | [] => [[]]
  | c :: cs =>
    if c = ' ' then [] :: stringsSplit cs
    else
      match stringsSplit cs with
      | [] => [[c]]
      | piece :: pieces => (c :: piece) :: pieces

/-- A transport failure: the `*url.Error` of a refused connection, which
unwraps to `*net.OpError`, `*os.SyscallError` and `syscall.Errno`. -/
def connectionRefused : GoError :=
  ⟨"*url.Error", "connection refused", ["*net.OpError", "*os.SyscallError", "syscall.Errno"]⟩

/-- The straight double quote, U+0022. -/
def dquote : Char := Char.ofNat 34

/-- The straight single quote, U+0027. -/
def squote : Char := Char.ofNat 39

/-- A fragment of the Unicode case tables: U+00C9 lower-cases to U+00E9, and
every other rune is left as it is. -/
def sampleCaseTable (c : Char) : Char :=
  if c.toNat = 0xC9 then Char.ofNat 0xE9 else c

/-! ## The vision clients (`main.go`, lines 94-277) -/

/-- What a gate returns: `(retv, err)`, and the number of attempts it made. -/
structure GateResult (α : Type) where
  retv : α
  err : Option (List GoError)
  calls : Nat
deriving DecidableEq, Repr

/-- One attempt of the Ollama quality query: either `client.Generate` fails
before the callback runs, or the callback runs and `strconv.Atoi` returns
`(v, e)` on the trimmed response. -/
inductive OllamaQualityAttempt
  | transport (e : GoError)
  | atoi (v : Int) (e : Option GoError)

/-- One attempt of the OpenAI quality query: `CreateChatCompletion` fails, or
the response has no choices, or `strconv.Atoi` returns `(v, e)`. -/
inductive OpenAIQualityAttempt
  | transport (e : GoError)
  | noChoices
  | atoi (v : Int) (e : Option GoError)

/-- One attempt of the Ollama classification query. -/
inductive OllamaClassAttempt
  | transport (e : GoError)
  | response (text : GoString)

/-- One attempt of the OpenAI classification query. -/
inductive OpenAIClassAttempt
  | transport (e : GoError)
  | noChoices
  | response (text : GoString)

/-- Closure passed to `retry.Do` in `ollamaClient.Qualify` (lines 117-139). -/
def ollamaClient.qualifyAttempt (a : OllamaQualityAttempt) (retv : Int) : Int × Option GoError :=
  match a with
  | .transport e => (retv, some e)
  | .atoi v (some e) => (v, some e)
  | .atoi v none => if v < 4 then (v, some errTryQualityAgain) else (v, none)

/-- Go method `ollamaClient.Qualify` (lines 115-144). -/
def ollamaClient.Qualify (world : Nat → OllamaQualityAttempt) : GateResult Int :=
  let r := retryDo (fun n retv => ollamaClient.qualifyAttempt (world n) retv) 3 0
  let err := if containsType r.err errTryQualityAgain then none else r.err
  ⟨r.state, err, r.calls⟩

/-- The normalization both `Classify` methods apply to the raw response:
`strings.ToLower(strings.TrimSpace(response))` (lines 160 and 264). -/
def normalize (caseTable : Char → Char) (response : GoString) : GoString :=
  stringsToLower caseTable (stringsTrimSpace response)

/-- The checks both `Classify` closures run on the normalized response
(lines 167-173 and 265-271). -/
def classifyCheck (retv : GoString) : Option GoError :=
  if (stringsSplit retv).length > 1 then some errTryClassifyingAgain
  else if retv = "unknown".toList ∨ retv = "none".toList then some errTryClassifyingAgain
  else none

/-- Closure passed to `retry.Do` in `ollamaClient.Classify` (lines 149-174). -/
def ollamaClient.classifyAttempt (caseTable : Char → Char) (a : OllamaClassAttempt)
    (retv : GoString) : GoString × Option GoError :=
  match a with
  | .transport e => (retv, some e)
  | .response text =>
    let retv' := normalize caseTable text
    (retv', classifyCheck retv')

/-- Go method `ollamaClient.Classify` (lines 147-179). -/
def ollamaClient.Classify (caseTable : Char → Char) (world : Nat → OllamaClassAttempt) :
    GateResult GoString :=
  let r := retryDo (fun n retv => ollamaClient.classifyAttempt caseTable (world n) retv) 5 []
  let err := if containsType r.err errTryClassifyingAgain then none else r.err
  ⟨r.state, err, r.calls⟩

/-- Closure passed to `retry.Do` in `openaiClient.Qualify` (lines 184-223). -/
def openaiClient.qualifyAttempt (a : OpenAIQualityAttempt) (retv : Int) : Int × Option GoError :=
  match a with
  | .transport e => (retv, some e)
  | .noChoices => (retv, some (errorsNew "no response from OpenAI"))
  | .atoi v (some e) => (v, some e)
  | .atoi v none => if v < 4 then (v, some errTryQualityAgain) else (v, none)

/-- Go method `openaiClient.Qualify` (lines 182-228). -/
def openaiClient.Qualify (world : Nat → OpenAIQualityAttempt) : GateResult Int :=
  let r := retryDo (fun n retv => openaiClient.qualifyAttempt (world n) retv) 3 0
  let err := if containsType r.err errTryQualityAgain then none else r.err
  ⟨r.state, err, r.calls⟩

/-- Closure passed to `retry.Do` in `openaiClient.Classify` (lines 233-272). -/
def openaiClient.classifyAttempt (caseTable : Char → Char) (a : OpenAIClassAttempt)
    (retv : GoString) : GoString × Option GoError :=
  match a with
  | .transport e => (retv, some e)
  | .noChoices => (retv, some (errorsNew "no response from OpenAI"))
  | .response text =>
    let retv' := normalize caseTable text
    (retv', classifyCheck retv')

/-- Go method `openaiClient.Classify` (lines 231-277). -/
def openaiClient.Classify (caseTable : Char → Char) (world : Nat → OpenAIClassAttempt) :
    GateResult GoString :=
  let r := retryDo (fun n retv => openaiClient.classifyAttempt caseTable (world n) retv) 5 []
  let err := if containsType r.err errTryClassifyingAgain then none else r.err
  ⟨r.state, err, r.calls⟩

/-! ## `processEntry` (`main.go`, lines 279-390) and the frame sampler (`img.go`) -/

/-- What one iteration of the frame loop meets: whether `Downscale` fails, and
what `client.Qualify` and `client.Classify` return for the frame when called. -/
structure FrameRun where
  downscaleErr : Bool
  qualify : Int × Option (List GoError)
  classify : GoString × Option (List GoError)
deriving DecidableEq, Repr

/-- The assignment `detectedAnimals[k] = true`. -/
def mapSet (m : List GoString) (k : GoString) : List GoString :=
  if k ∈ m then m else m ++ [k]

/-- How the frame loop ends. -/
inductive LoopResult
  | fatal
  | returned
  | finished (qualityResult : Int) (detectedAnimals : List GoString)
deriving DecidableEq, Repr

/-- The loop `for _, frame := range frames` of `processEntry` (lines 321-348),
started with the current `qualityResult` and `detectedAnimals`.  `fatal` is
`log.Fatalf`; `returned` is the logged `return` on a failed query. -/
def frameLoop : List FrameRun → Int → List GoString → LoopResult
  | [], qualityResult, detectedAnimals => .finished qualityResult detectedAnimals
  | frame :: frames, qualityResult, detectedAnimals =>
    if frame.downscaleErr then .fatal
    else
      match frame.qualify with
      | (_, some _) => .returned
      | (frameQualityResult, none) =>
        let qualityResult := max qualityResult frameQualityResult
        if frameQualityResult < 3 then frameLoop frames qualityResult detectedAnimals
        else
          match frame.classify with
          | (_, some _) => .returned
          | (frameClassResult, none) =>
            if frameClassResult ≠ [] ∧ frameClassResult ≠ "none".toList
                ∧ frameClassResult ≠ "unknown".toList then
              frameLoop frames qualityResult (mapSet detectedAnimals frameClassResult)
            else frameLoop frames qualityResult detectedAnimals

/-- The file-system calls `processEntry` can issue. -/
inductive FsAction
  | move (toDir : GoString)
  | hardlinkToMultipleDirectories (animals : List GoString)
deriving DecidableEq, Repr

/-- The five places of lines 350-389 where a file-system call is issued, named
after what the code logs there. -/
inductive Branch
  | lowQuality
  | noAnimals
  | detected
  | multipleAnimals
  | usingFirstDetection
deriving DecidableEq, Repr

/-- Go function `getKeys` (lines 393-399): appends every key met by `range m`. -/
def getKeys (rangeOrder : List GoString → List GoString) (m : List GoString) : List GoString :=
  (rangeOrder m).foldl (fun keys k => keys ++ [k]) []

/-- Lines 350-389 of `processEntry`: the branch taken and the file-system calls
issued there, in order, each one assumed to succeed (on failure the code calls
`log.Fatalf` and nothing follows). -/
def route (qualityResult : Int) (detectedAnimals : List GoString) (isVideo : Bool)
    (rangeOrder : List GoString → List GoString) : Branch × List FsAction :=
  if qualityResult < 3 then (.lowQuality, [.move "_lowq".toList])
  else if detectedAnimals.length = 0 then (.noAnimals, [.move "none".toList])
  else if detectedAnimals.length = 1 then
    (.detected, (rangeOrder detectedAnimals).map .move)
  else if isVideo then
    (.multipleAnimals, [.hardlinkToMultipleDirectories (getKeys rangeOrder detectedAnimals)])
  else
    (.usingFirstDetection, ((rangeOrder detectedAnimals).take 1).map .move)

/-- The three `ffmpeg` runs of `ExtractFramesFromVideo` (`img.go`, lines 72-87);
`grab i` is the frame of the i-th position, `none` when the run fails. -/
def extractLoop {α : Type} (grab : Nat → Option α) : List Nat → List α → Option (List α)
  | [], frames => some frames
  | pos :: positions, frames =>
    match grab pos with
    | none => none
    | some buf => extractLoop grab positions (frames ++ [buf])

/-- Go function `ExtractFramesFromVideo` (`img.go`): `none` is a non-nil error. -/
def ExtractFramesFromVideo {α : Type} (probeOk : Bool) (grab : Nat → Option α) :
    Option (List α) :=
  if probeOk then extractLoop grab [0, 1, 2] [] else none

/-- What `processEntry` meets for one directory entry.  A frame is given as
the `FrameRun` the loop will meet for it. -/
structure EntryRun where
  infoErr : Bool
  isDir : Bool
  fExt : GoString
  readFile : Option FrameRun
  probeOk : Bool
  grab : Nat → Option FrameRun

/-- How `processEntry` ends. -/
inductive Outcome
  | fatal
  | skipped
  | returned
  | routed (branch : Branch) (actions : List FsAction)
deriving DecidableEq, Repr

/-- Lines 318-389 of `processEntry`: the frame loop, then the routing. -/
def processFrames (frames : List FrameRun) (isVideo : Bool)
    (rangeOrder : List GoString → List GoString) : Outcome :=
  match frameLoop frames 0 [] with
  | .fatal => .fatal
  | .returned => .returned
  | .finished qualityResult detectedAnimals =>
    let r := route qualityResult detectedAnimals isVideo rangeOrder
    .routed r.1 r.2

/-- Go function `processEntry` (lines 279-390).  `fExt` is the lower-cased
extension of the entry's name. -/
def processEntry (e : EntryRun) (rangeOrder : List GoString → List GoString) : Outcome :=
  if e.infoErr then .fatal
  else if e.isDir then .skipped
  else if e.fExt = ".jpg".toList ∨ e.fExt = ".jpeg".toList then
    match e.readFile with
    | none => .fatal
    | some content => processFrames ([] ++ [content]) false rangeOrder
  else if e.fExt = ".mp4".toList ∨ e.fExt = ".avi".toList ∨ e.fExt = ".mov".toList
      ∨ e.fExt = ".mkv".toList ∨ e.fExt = ".webm".toList then
    match ExtractFramesFromVideo e.probeOk e.grab with
    | none => .returned
    | some videoFrames => processFrames videoFrames true rangeOrder
  else .skipped

/-- The frame the loop meets when the Ollama client answers the quality query
with `qworld` and the classification query with `cworld`. -/
def ollamaFrame (caseTable : Char → Char) (qworld : Nat → OllamaQualityAttempt)
    (cworld : Nat → OllamaClassAttempt) : FrameRun :=
  let q := ollamaClient.Qualify qworld
  let c := ollamaClient.Classify caseTable cworld
  ⟨false, (q.retv, q.err), (c.retv, c.err)⟩

/-- The frame the loop meets when the OpenAI client answers with `qworld` and `cworld`. -/
def openaiFrame (caseTable : Char → Char) (qworld : Nat → OpenAIQualityAttempt)
    (cworld : Nat → OpenAIClassAttempt) : FrameRun :=
  let q := openaiClient.Qualify qworld
  let c := openaiClient.Classify caseTable cworld
  ⟨false, (q.retv, q.err), (c.retv, c.err)⟩

/-- The largest element of a non-empty list of scores (`none` for the empty list). -/
def maxScore : List Int → Option Int
  | [] => none
  | x :: xs => some (xs.foldl max x)

/-- The per-frame scores `client.Qualify` returns for the frames. -/
def frameScores (frames : List FrameRun) : List Int :=
  frames.map (fun f => f.qualify.1)

/-! ## Auxiliary facts -/

theorem getKeys_eq (rangeOrder : List GoString → List GoString) (m : List GoString) :
    getKeys rangeOrder m = rangeOrder m := by
  have h : ∀ (l acc : List GoString), l.foldl (fun keys k => keys ++ [k]) acc = acc ++ l := by
    intro l
    induction l with
    | nil => intro acc; simp
    | cons x xs ih => intro acc; simp [List.foldl_cons, ih]
  simpa [getKeys] using h (rangeOrder m) []

theorem mapSet_nodup (m : List GoString) (k : GoString) (hm : m.Nodup) : (mapSet m k).Nodup := by
  unfold mapSet
  split
  · exact hm
  · rename_i hk
    rw [List.nodup_append]
    refine ⟨hm, List.nodup_singleton k, ?_⟩
    intro a ha hb
    simp at hb
    subst hb
    exact hk ha

theorem mapSet_length_le (m : List GoString) (k : GoString) :
    (mapSet m k).length ≤ m.length + 1 := by
  unfold mapSet
  split <;> simp

theorem mem_mapSet (m : List GoString) (k x : GoString) : x ∈ mapSet m k ↔ x ∈ m ∨ x = k := by
  unfold mapSet
  split
  · rename_i hk
    constructor
    · intro h; exact Or.inl h
    · rintro (h | h)
      · exact h
      · subst h; exact hk
  · simp

/-- The frame loop, unfolded one iteration. -/
theorem frameLoop_cons (f : FrameRun) (fs : List FrameRun) (q : Int) (m : List GoString) :
    frameLoop (f :: fs) q m =
      if f.downscaleErr then .fatal
      else
        match f.qualify with
        | (_, some _) => .returned
        | (fq, none) =>
          if fq < 3 then frameLoop fs (max q fq) m
          else
            match f.classify with
            | (_, some _) => .returned
            | (c, none) =>
              if c ≠ [] ∧ c ≠ "none".toList ∧ c ≠ "unknown".toList then
                frameLoop fs (max q fq) (mapSet m c)
              else frameLoop fs (max q fq) m := by
  rfl

/-- Invariant of the frame loop: any property of `(qualityResult, detectedAnimals)`
kept by "raise the score without inserting" and by "raise the score to at least 3 and
insert a label that is none of the excluded ones" holds when the loop finishes. -/
theorem frameLoop_invariant (P : Int → List GoString → Prop)
    (hskip : ∀ q m fq, P q m → P (max q fq) m)
    (hins : ∀ q m fq c, P q m → 3 ≤ fq → c ≠ [] → c ≠ "none".toList → c ≠ "unknown".toList →
      P (max q fq) (mapSet m c))
    (fs : List FrameRun) :
    ∀ (q : Int) (m : List GoString) (q' : Int) (m' : List GoString),
      P q m → frameLoop fs q m = .finished q' m' → P q' m' := by
  induction fs with
  | nil =>
    intro q m q' m' hP h
    simp only [frameLoop, LoopResult.finished.injEq] at h
    obtain ⟨rfl, rfl⟩ := h
    exact hP
  | cons f fs ih =>
    intro q m q' m' hP h
    rw [frameLoop_cons] at h
    rcases f with ⟨d, ⟨fq, qe⟩, ⟨c, ce⟩⟩
    cases d
    · cases qe with
      | some e => simp at h
      | none =>
        by_cases hlow : fq < 3
        · simp only [hlow, if_true, Bool.false_eq_true, if_false] at h
          exact ih _ _ _ _ (hskip q m fq hP) h
        · cases ce with
          | some e => simp [hlow] at h
          | none =>
            simp only [hlow, if_false, Bool.false_eq_true] at h
            split at h
            · rename_i hc
              exact ih _ _ _ _ (hins q m fq c hP (by omega) hc.1 hc.2.1 hc.2.2) h
            · exact ih _ _ _ _ (hskip q m fq hP) h
    · simp at h

theorem frameLoop_score (fs : List FrameRun) :
    ∀ (q : Int) (m : List GoString) (q' : Int) (m' : List GoString),
      frameLoop fs q m = .finished q' m' → q' = (frameScores fs).foldl max q := by
  induction fs with
  | nil =>
    intro q m q' m' h
    simp only [frameLoop, LoopResult.finished.injEq] at h
    simp [frameScores, h.1]
  | cons f fs ih =>
    intro q m q' m' h
    rw [frameLoop_cons] at h
    rcases f with ⟨d, ⟨fq, qe⟩, ⟨c, ce⟩⟩
    have hs : (frameScores (⟨d, (fq, qe), (c, ce)⟩ :: fs)).foldl max q
        = (frameScores fs).foldl max (max q fq) := by
      simp [frameScores]
    rw [hs]
    cases d
    · cases qe with
      | some e => simp at h
      | none =>
        by_cases hlow : fq < 3
        · simp only [hlow, if_true, Bool.false_eq_true, if_false] at h
          exact ih _ _ _ _ h
        · cases ce with
          | some e => simp [hlow] at h
          | none =>
            simp only [hlow, if_false, Bool.false_eq_true] at h
            split at h
            · exact ih _ _ _ _ h
            · exact ih _ _ _ _ h
    · simp at h

theorem frameLoop_length (fs : List FrameRun) :
    ∀ (q : Int) (m : List GoString) (q' : Int) (m' : List GoString),
      frameLoop fs q m = .finished q' m' →
      m'.length ≤ m.length + (fs.filter (fun f => decide (3 ≤ f.qualify.1))).length := by
  induction fs with
  | nil =>
    intro q m q' m' h
    simp only [frameLoop, LoopResult.finished.injEq] at h
    simp [h.2]
  | cons f fs ih =>
    intro q m q' m' h
    rw [frameLoop_cons] at h
    rcases f with ⟨d, ⟨fq, qe⟩, ⟨c, ce⟩⟩
    cases d
    · cases qe with
      | some e => simp at h
      | none =>
        by_cases hlow : fq < 3
        · simp only [hlow, if_true, Bool.false_eq_true, if_false] at h
          have := ih _ _ _ _ h
          have hn : ¬ (3 ≤ fq) := by omega
          simpa [List.filter_cons, hn] using this
        · cases ce with
          | some e => simp [hlow] at h
          | none =>
            simp only [hlow, if_false, Bool.false_eq_true] at h
            have hn : 3 ≤ fq := by omega
            split at h
            · have := ih _ _ _ _ h
              have hl := mapSet_length_le m c
              simp only [List.filter_cons, hn, decide_True, if_true, List.length_cons]
              omega
            · have := ih _ _ _ _ h
              simp only [List.filter_cons, hn, decide_True, if_true, List.length_cons]
              omega
    · simp at h

/-- The loop finishes when no frame meets a failure. -/
theorem frameLoop_finishes (fs : List FrameRun)
    (hok : ∀ f ∈ fs, f.downscaleErr = false ∧ f.qualify.2 = none ∧ f.classify.2 = none) :
    ∀ (q : Int) (m : List GoString), ∃ q' m', frameLoop fs q m = .finished q' m' := by
  induction fs with
  | nil => intro q m; exact ⟨q, m, rfl⟩
  | cons f fs ih =>
    intro q m
    have hf := hok f (List.mem_cons_self f fs)
    have ih' := ih (fun g hg => hok g (List.mem_cons_of_mem f hg))
    rw [frameLoop_cons]
    rcases f with ⟨d, ⟨fq, qe⟩, ⟨c, ce⟩⟩
    simp only at hf
    obtain ⟨rfl, rfl, rfl⟩ := hf
    simp only [Bool.false_eq_true, if_false]
    split
    · exact ih' _ _
    · split
      · exact ih' _ _
      · exact ih' _ _

theorem foldl_max_comm (xs : List Int) :
    ∀ (a b : Int), xs.foldl max (max a b) = max a (xs.foldl max b) := by
  induction xs with
  | nil => intro a b; simp
  | cons x xs ih =>
    intro a b
    simp only [List.foldl_cons]
    rw [max_assoc, ih]

theorem route_branch_first (q : Int) (m : List GoString) (v : Bool)
    (rangeOrder : List GoString → List GoString)
    (h : (route q m v rangeOrder).1 = .usingFirstDetection) : 2 ≤ m.length ∧ v = false := by
  unfold route at h
  split at h
  · simp at h
  · split at h
    · simp at h
    · split at h
      · simp at h
      · split at h
        · simp at h
        · rename_i h0 h1 hv
          refine ⟨by omega, by simpa using hv⟩

theorem toNat_ofNat_of_lt (k : Nat) (h : k < 0xD800) : (Char.ofNat k).toNat = k := by
  have hv : k.isValidChar := Or.inl h
  simp only [Char.ofNat, hv, dite_true, Char.ofNatAux, Char.toNat]
  show (UInt32.ofNat' k _).toNat = k
  simp [UInt32.ofNat', UInt32.toNat]

/-- On the ASCII range `unicode.ToLower` yields an ASCII rune outside `A`..`Z`. -/
theorem unicodeToLower_ascii (t : Char → Char) (c : Char) (hc : c.toNat ≤ 0x7F) :
    (unicodeToLower t c).toNat ≤ 0x7F ∧
    ¬ ('A'.toNat ≤ (unicodeToLower t c).toNat ∧ (unicodeToLower t c).toNat ≤ 'Z'.toNat) ∧
    (unicodeIsSpace c = false → unicodeIsSpace (unicodeToLower t c) = false) := by
  unfold unicodeToLower
  rw [if_pos hc]
  have hA : 'A'.toNat = 65 := by decide
  have hZ : 'Z'.toNat = 90 := by decide
  have ha : 'a'.toNat = 97 := by decide
  rw [hA, hZ, ha]
  by_cases hu : 65 ≤ c.toNat ∧ c.toNat ≤ 90
  · rw [if_pos hu]
    have hn : (Char.ofNat (c.toNat + (97 - 65))).toNat = c.toNat + 32 :=
      toNat_ofNat_of_lt _ (by omega)
    refine ⟨by omega, by omega, ?_⟩
    intro _
    unfold unicodeIsSpace
    simp only [hn]
    have h1 : c.toNat + 32 ≤ 0xFF := by omega
    simp only [h1, if_true]
    simp
    omega
  · rw [if_neg hu]
    exact ⟨hc, hu, fun h => h⟩

/-- With case tables that keep what they produce fixed, `unicode.ToLower` is idempotent. -/
theorem unicodeToLower_idem (t : Char → Char)
    (hfix : ∀ c, 0x7F < c.toNat → unicodeToLower t (t c) = t c) (c : Char) :
    unicodeToLower t (unicodeToLower t c) = unicodeToLower t c := by
  by_cases hc : c.toNat ≤ 0x7F
  · obtain ⟨h1, h2, _⟩ := unicodeToLower_ascii t c hc
    generalize unicodeToLower t c = d at h1 h2
    unfold unicodeToLower
    rw [if_pos h1, if_neg h2]
  · have hd : unicodeToLower t c = t c := by
      unfold unicodeToLower
      rw [if_neg hc]
    rw [hd]
    exact hfix c (by omega)

/-- With case tables that never produce white space from something else,
neither does `unicode.ToLower`. -/
theorem unicodeToLower_not_space (t : Char → Char)
    (hspace : ∀ c, 0x7F < c.toNat → unicodeIsSpace c = false → unicodeIsSpace (t c) = false)
    (c : Char) (h : unicodeIsSpace c = false) : unicodeIsSpace (unicodeToLower t c) = false := by
  by_cases hc : c.toNat ≤ 0x7F
  · exact (unicodeToLower_ascii t c hc).2.2 h
  · have hd : unicodeToLower t c = t c := by
      unfold unicodeToLower
      rw [if_neg hc]
    rw [hd]
    exact hspace c (by omega) h

/-- What `strings.TrimSpace` returns neither starts nor ends with white space. -/
theorem stringsTrimSpace_ends (s : GoString) :
    (∀ c rest, stringsTrimSpace s = c :: rest → unicodeIsSpace c = false) ∧
    (∀ h : stringsTrimSpace s ≠ [], unicodeIsSpace ((stringsTrimSpace s).getLast h) = false) := by
  constructor
  · intro c rest hy
    have hpre : stringsTrimSpace s <+: s.dropWhile unicodeIsSpace := List.rdropWhile_prefix _ _
    rw [hy] at hpre
    obtain ⟨tl, htl⟩ := hpre
    have hd := (List.dropWhile_eq_self_iff (p := unicodeIsSpace)
      (l := s.dropWhile unicodeIsSpace)).mp (List.dropWhile_idempotent _ _)
    rw [← htl] at hd
    have := hd (by simp)
    simpa using this
  · intro h
    have := List.rdropWhile_last_not unicodeIsSpace (s.dropWhile unicodeIsSpace) h
    simpa [stringsTrimSpace] using this

/-- A string that neither starts nor ends with white space is left alone by
`strings.TrimSpace`. -/
theorem stringsTrimSpace_eq_self (x : GoString)
    (hhead : ∀ c rest, x = c :: rest → unicodeIsSpace c = false)
    (hlast : ∀ h : x ≠ [], unicodeIsSpace (x.getLast h) = false) :
    stringsTrimSpace x = x := by
  have h1 : x.dropWhile unicodeIsSpace = x := by
    cases x with
    | nil => rfl
    | cons c rest =>
      have := hhead c rest rfl
      simp [List.dropWhile_cons, this]
  unfold stringsTrimSpace
  rw [h1, List.rdropWhile_eq_self_iff]
  intro h
  simp [hlast h]

/-! ## Routing and aggregation -/

/-- C1. For every quality verdict `q`, every label set `m` (a key list without
repetition) and either kind of file, whatever order `range` visits the keys in,
lines 350-389 issue exactly one file-system call `a`, and every run of
`processEntry` whose frame loop finishes with `(q, m)` ends with exactly that
call: a move to "_lowq" when `q < 3`; otherwise a move to "none" when the set
is empty; otherwise a move to `L` when the set is `{L}`; otherwise, for a video,
a hardlink fanout over a list holding each label of the set exactly once, and
for a still image a move to a member of the set. -/
theorem route_decision_table (q : Int) (m : List GoString) (isVideo : Bool)
    (rangeOrder : List GoString → List GoString)
    (hm : m.Nodup) (hrange : (rangeOrder m).Perm m) :
    ∃ a, (route q m isVideo rangeOrder).2 = [a] ∧
      (∀ frames, frameLoop frames 0 [] = .finished q m →
        processFrames frames isVideo rangeOrder
          = .routed (route q m isVideo rangeOrder).1 [a]) ∧
      (q < 3 → a = .move "_lowq".toList) ∧
      (3 ≤ q → m = [] → a = .move "none".toList) ∧
      (3 ≤ q → ∀ L, m = [L] → a = .move L) ∧
      (3 ≤ q → 2 ≤ m.length → isVideo = true →
        ∃ l, a = .hardlinkToMultipleDirectories l ∧ l.Perm m ∧ l.Nodup) ∧
      (3 ≤ q → 2 ≤ m.length → isVideo = false → ∃ L, L ∈ m ∧ a = .move L) := by
  have hrun : ∀ a, (route q m isVideo rangeOrder).2 = [a] →
      ∀ frames, frameLoop frames 0 [] = .finished q m →
        processFrames frames isVideo rangeOrder
          = .routed (route q m isVideo rangeOrder).1 [a] := by
    intro a ha frames hfin
    simp only [processFrames, hfin, ha]
  suffices hs : ∃ a, (route q m isVideo rangeOrder).2 = [a] ∧
      (q < 3 → a = .move "_lowq".toList) ∧
      (3 ≤ q → m = [] → a = .move "none".toList) ∧
      (3 ≤ q → ∀ L, m = [L] → a = .move L) ∧
      (3 ≤ q → 2 ≤ m.length → isVideo = true →
        ∃ l, a = .hardlinkToMultipleDirectories l ∧ l.Perm m ∧ l.Nodup) ∧
      (3 ≤ q → 2 ≤ m.length → isVideo = false → ∃ L, L ∈ m ∧ a = .move L) by
    obtain ⟨a, ha, hrest⟩ := hs
    exact ⟨a, ha, hrun a ha, hrest⟩
  unfold route
  by_cases hq : q < 3
  · refine ⟨.move "_lowq".toList, by simp [hq], fun _ => rfl, ?_, ?_, ?_, ?_⟩ <;>
      intro h3 <;> omega
  · simp only [hq, if_false]
    by_cases h0 : m.length = 0
    · have hnil : m = [] := List.length_eq_zero.mp h0
      subst hnil
      refine ⟨.move "none".toList, by simp, fun h => h.elim, fun _ _ => rfl, ?_, ?_, ?_⟩
      · intro _ L hL; simp at hL
      · intro _ h2; simp at h2
      · intro _ h2; simp at h2
    · simp only [h0, if_false]
      by_cases h1 : m.length = 1
      · obtain ⟨L, rfl⟩ := List.length_eq_one.mp h1
        have hr : rangeOrder [L] = [L] := List.perm_singleton.mp hrange
        refine ⟨.move L, by simp [hr], fun h => h.elim, ?_, ?_, ?_, ?_⟩
        · intro _ h; simp at h
        · intro _ L' hL'
          simp only [List.cons.injEq, and_true] at hL'
          rw [hL']
        · intro _ h2; simp at h2
        · intro _ h2; simp at h2
      · simp only [h1, if_false]
        cases isVideo with
        | true =>
          refine ⟨.hardlinkToMultipleDirectories (getKeys rangeOrder m), by simp,
            fun h => h.elim, ?_, ?_, ?_, ?_⟩
          · intro _ h; exact absurd (by rw [h]; rfl) h0
          · intro _ L hL; exact absurd (by rw [hL]; rfl) h1
          · intro _ _ _
            refine ⟨_, rfl, ?_, ?_⟩
            · rw [getKeys_eq]; exact hrange
            · rw [getKeys_eq]; exact hrange.nodup_iff.mpr hm
          · intro _ _ h; simp at h
        | false =>
          have hlen : (rangeOrder m).length = m.length := hrange.length_eq
          cases hr : rangeOrder m with
          | nil => rw [hr] at hlen; simp at hlen; omega
          | cons L rest =>
            have hL : L ∈ m := hrange.subset (by rw [hr]; exact List.mem_cons_self L rest)
            refine ⟨.move L, by simp, fun h => h.elim, ?_, ?_, ?_, ?_⟩
            · intro _ h; exact absurd (by rw [h]; rfl) h0
            · intro _ L' hL'; exact absurd (by rw [hL']; rfl) h1
            · intro _ _ h; simp at h
            · intro _ _ _; exact ⟨L, hL, rfl⟩

/-- Witness for C1: a video with labels deer and fox, visited
by `range` in reverse order. -/
theorem route_decision_table_witness :
    ∃ a, (route 4 ["deer".toList, "fox".toList] true List.reverse).2 = [a] ∧
      (∀ frames, frameLoop frames 0 [] = .finished 4 ["deer".toList, "fox".toList] →
        processFrames frames true List.reverse
          = .routed (route 4 ["deer".toList, "fox".toList] true List.reverse).1 [a]) ∧
      ((4 : Int) < 3 → a = .move "_lowq".toList) ∧
      ((3 : Int) ≤ 4 → ["deer".toList, "fox".toList] = [] → a = .move "none".toList) ∧
      ((3 : Int) ≤ 4 → ∀ L, ["deer".toList, "fox".toList] = [L] → a = .move L) ∧
      ((3 : Int) ≤ 4 → 2 ≤ ["deer".toList, "fox".toList].length → true = true →
        ∃ l, a = .hardlinkToMultipleDirectories l ∧ l.Perm ["deer".toList, "fox".toList]
          ∧ l.Nodup) ∧
      ((3 : Int) ≤ 4 → 2 ≤ ["deer".toList, "fox".toList].length → true = false →
        ∃ L, L ∈ ["deer".toList, "fox".toList] ∧ a = .move L) :=
  route_decision_table 4 ["deer".toList, "fox".toList] true List.reverse (by decide)
    (List.reverse_perm _)

/-- C2. Whatever the frames and whatever `Qualify` and `Classify` return for
them, when the frame loop of `processEntry` finishes, the detected-animal set
holds neither "none" nor "unknown". -/
theorem detectedAnimals_without_sentinels (frames : List FrameRun) (q : Int)
    (m : List GoString) (h : frameLoop frames 0 [] = .finished q m) :
    "none".toList ∉ m ∧ "unknown".toList ∉ m := by
  refine frameLoop_invariant (fun _ m => "none".toList ∉ m ∧ "unknown".toList ∉ m)
    (fun _ _ _ hP => hP) ?_ frames 0 [] q m (by simp) h
  intro q m fq c hP _ _ hnone hunknown
  constructor
  · rw [mem_mapSet]
    rintro (hm | hc)
    · exact hP.1 hm
    · exact hnone hc.symm
  · rw [mem_mapSet]
    rintro (hm | hc)
    · exact hP.2 hm
    · exact hunknown hc.symm

/-- Witness for C2: three good frames classified
as "none", "deer" and "unknown". -/
theorem detectedAnimals_without_sentinels_witness :
    frameLoop [⟨false, (4, none), ("none".toList, none)⟩,
        ⟨false, (4, none), ("deer".toList, none)⟩,
        ⟨false, (5, none), ("unknown".toList, none)⟩] 0 [] = .finished 5 ["deer".toList]
      ∧ "none".toList ∉ ["deer".toList] ∧ "unknown".toList ∉ ["deer".toList] :=
  ⟨by decide, detectedAnimals_without_sentinels
    [⟨false, (4, none), ("none".toList, none)⟩, ⟨false, (4, none), ("deer".toList, none)⟩,
      ⟨false, (5, none), ("unknown".toList, none)⟩] 5 ["deer".toList] (by decide)⟩

/-- C4, as stated, fails.  The Ollama model answers "-1" (which `strconv.Atoi`
parses) at each of the three attempts on the only frame of a still image:
`Qualify` returns -1 without error, the true maximum of the per-frame scores is
-1, and the loop finishes with `qualityResult` 0. -/
theorem qualityResult_not_true_maximum :
    ollamaClient.Qualify (fun _ => .atoi (-1) none) = ⟨-1, none, 3⟩ ∧
    frameLoop [⟨false, ((ollamaClient.Qualify (fun _ => .atoi (-1) none)).retv,
      (ollamaClient.Qualify (fun _ => .atoi (-1) none)).err), ("deer".toList, none)⟩] 0 []
      = .finished 0 [] ∧
    maxScore (frameScores [⟨false, ((ollamaClient.Qualify (fun _ => .atoi (-1) none)).retv,
      (ollamaClient.Qualify (fun _ => .atoi (-1) none)).err), ("deer".toList, none)⟩])
      = some (-1) := by
  decide

/-- C4, amended. For every non-empty frame sequence whose frames downscale and
whose quality queries all succeed, with `t` the true maximum of the per-frame
scores returned by `Qualify`: whenever the frame loop finishes, `qualityResult`
is the larger of 0 and `t`, hence is `t` itself when `t` is not negative; and
the loop does finish, with that value, when the classification queries succeed
too. -/
theorem qualityResult_eq_max_zero (frames : List FrameRun) (hne : frames ≠ [])
    (hq : ∀ f ∈ frames, f.downscaleErr = false ∧ f.qualify.2 = none) :
    ∃ t, maxScore (frameScores frames) = some t ∧
      (∀ q m, frameLoop frames 0 [] = .finished q m → q = max 0 t ∧ (0 ≤ t → q = t)) ∧
      ((∀ f ∈ frames, f.classify.2 = none) →
        ∃ m, frameLoop frames 0 [] = .finished (max 0 t) m) := by
  cases frames with
  | nil => exact absurd rfl hne
  | cons f fs =>
    have hfold : (frameScores (f :: fs)).foldl max 0
        = max 0 ((frameScores fs).foldl max f.qualify.1) := by
      simp only [frameScores, List.map_cons, List.foldl_cons]
      exact foldl_max_comm _ 0 f.qualify.1
    refine ⟨(frameScores fs).foldl max f.qualify.1, rfl, ?_, ?_⟩
    · intro q m h
      have hs := frameLoop_score (f :: fs) 0 [] q m h
      rw [hfold] at hs
      exact ⟨hs, fun ht => by rw [hs]; exact max_eq_right ht⟩
    · intro hc
      obtain ⟨q', m', h⟩ := frameLoop_finishes (f :: fs)
        (fun g hg => ⟨(hq g hg).1, (hq g hg).2, hc g hg⟩) 0 []
      have hs := frameLoop_score (f :: fs) 0 [] q' m' h
      rw [hfold] at hs
      exact ⟨m', by rw [← hs]; exact h⟩

/-- Witness for the amended C4: a video whose three frames score 2, 5 and 3. -/
theorem qualityResult_eq_max_zero_witness :
    ∃ t, maxScore (frameScores [⟨false, (2, none), ("deer".toList, none)⟩,
        ⟨false, (5, none), ("fox".toList, none)⟩, ⟨false, (3, none), ("deer".toList, none)⟩])
        = some t ∧
      (∀ q m, frameLoop [⟨false, (2, none), ("deer".toList, none)⟩,
          ⟨false, (5, none), ("fox".toList, none)⟩, ⟨false, (3, none), ("deer".toList, none)⟩]
          0 [] = .finished q m → q = max 0 t ∧ (0 ≤ t → q = t)) ∧
      ((∀ f ∈ [(⟨false, (2, none), ("deer".toList, none)⟩ : FrameRun),
          ⟨false, (5, none), ("fox".toList, none)⟩, ⟨false, (3, none), ("deer".toList, none)⟩],
          f.classify.2 = none) →
        ∃ m, frameLoop [⟨false, (2, none), ("deer".toList, none)⟩,
          ⟨false, (5, none), ("fox".toList, none)⟩, ⟨false, (3, none), ("deer".toList, none)⟩]
          0 [] = .finished (max 0 t) m) :=
  qualityResult_eq_max_zero [⟨false, (2, none), ("deer".toList, none)⟩,
    ⟨false, (5, none), ("fox".toList, none)⟩, ⟨false, (3, none), ("deer".toList, none)⟩]
    (by decide) (by decide)

/-- C10. When the frame loop of `processEntry` finishes, the detected-animal set
has no repeated key and at most as many labels as there are frames whose
quality score is at least 3; a non-empty set implies `qualityResult ≥ 3`; a
one-frame sequence yields fewer than two labels; and no run of `processEntry`
ends in the "Using first detection" branch. -/
theorem labels_bounded_by_good_frames (frames : List FrameRun) (q : Int) (m : List GoString)
    (h : frameLoop frames 0 [] = .finished q m) :
    m.Nodup ∧
    m.length ≤ (frames.filter (fun f => decide (3 ≤ f.qualify.1))).length ∧
    (m ≠ [] → 3 ≤ q) ∧
    (frames.length = 1 → m.length < 2) ∧
    (∀ (e : EntryRun) (rangeOrder : List GoString → List GoString) (actions : List FsAction),
      processEntry e rangeOrder ≠ .routed .usingFirstDetection actions) := by
  have hlen := frameLoop_length frames 0 [] q m h
  simp only [List.length_nil, Nat.zero_add] at hlen
  have hone : ∀ (fs : List FrameRun) (q' : Int) (m' : List GoString), fs.length = 1 →
      frameLoop fs 0 [] = .finished q' m' → m'.length < 2 := by
    intro fs q' m' h1 hfin
    have h2 := frameLoop_length fs 0 [] q' m' hfin
    have h3 := List.length_filter_le (fun f : FrameRun => decide (3 ≤ f.qualify.1)) fs
    simp only [List.length_nil, Nat.zero_add] at h2
    omega
  refine ⟨?_, hlen, ?_, fun h1 => hone frames q m h1 h, ?_⟩
  · exact frameLoop_invariant (fun _ m => m.Nodup) (fun _ _ _ hP => hP)
      (fun _ m _ c hP _ _ _ _ => mapSet_nodup m c hP) frames 0 [] q m List.nodup_nil h
  · exact frameLoop_invariant (fun q m => m ≠ [] → 3 ≤ q)
      (fun q m fq hP hm => le_trans (hP hm) (le_max_left q fq))
      (fun q m fq c _ h3 _ _ _ _ => le_trans h3 (le_max_right q fq)) frames 0 [] q m
      (fun hm => absurd rfl hm) h
  · intro e rangeOrder actions hrun
    have hframes : ∀ (fs : List FrameRun) (v : Bool), (v = false → fs.length = 1) →
        processFrames fs v rangeOrder ≠ .routed .usingFirstDetection actions := by
      intro fs v hv hpf
      unfold processFrames at hpf
      split at hpf
      · simp at hpf
      · simp at hpf
      · rename_i q' m' hfin
        simp only [Outcome.routed.injEq] at hpf
        have hb := route_branch_first q' m' v rangeOrder hpf.1
        have := hone fs q' m' (hv hb.2) hfin
        omega
    unfold processEntry at hrun
    split at hrun
    · simp at hrun
    · split at hrun
      · simp at hrun
      · split at hrun
        · split at hrun
          · simp at hrun
          · exact hframes _ false (fun _ => by simp) hrun
        · split at hrun
          · split at hrun
            · simp at hrun
            · exact hframes _ true (fun hv => by simp at hv) hrun
          · simp at hrun

/-- Witness for C10: a video whose frames score 4, 2
and 4 and are classified as deer, fox and deer. -/
theorem labels_bounded_by_good_frames_witness :
    ["deer".toList].Nodup ∧
    ["deer".toList].length ≤ (([⟨false, (4, none), ("deer".toList, none)⟩,
      ⟨false, (2, none), ("fox".toList, none)⟩, ⟨false, (4, none), ("deer".toList, none)⟩] :
      List FrameRun).filter (fun f => decide (3 ≤ f.qualify.1))).length ∧
    (["deer".toList] ≠ [] → (3 : Int) ≤ 4) ∧
    (([⟨false, (4, none), ("deer".toList, none)⟩,
      ⟨false, (2, none), ("fox".toList, none)⟩, ⟨false, (4, none), ("deer".toList, none)⟩] :
      List FrameRun).length = 1 → ["deer".toList].length < 2) ∧
    (∀ (e : EntryRun) (rangeOrder : List GoString → List GoString) (actions : List FsAction),
      processEntry e rangeOrder ≠ .routed .usingFirstDetection actions) :=
  labels_bounded_by_good_frames [⟨false, (4, none), ("deer".toList, none)⟩,
    ⟨false, (2, none), ("fox".toList, none)⟩, ⟨false, (4, none), ("deer".toList, none)⟩]
    4 ["deer".toList] (by decide)

/-! ## The quality gate -/

/-- Go method `ollamaClient.Qualify` on attempts that parse: with the attempts up to the
`k`-th parsed, those before it below 4, and the `k`-th at least 4 or the third
one, the gate makes `k + 1` attempts and returns the `k`-th score and `nil`. -/
theorem ollamaQualify_stops_at (w : Nat → OllamaQualityAttempt) (s : Nat → Int) (k : Nat) (hk : k < 3)
    (hparsed : ∀ n, n ≤ k → w n = .atoi (s n) none)
    (hlow : ∀ n, n < k → s n < 4)
    (hstop : 4 ≤ s k ∨ k = 2) :
    ollamaClient.Qualify w = ⟨s k, none, k + 1⟩ := by
  have hct : ∀ l : List GoError,
      containsType (some (errTryQualityAgain :: l)) errTryQualityAgain = true := by
    intro l
    simp [containsType]
  interval_cases k
  · have h0 := hparsed 0 (by omega)
    have hs : ¬ (s 0 < 4) := by omega
    simp [ollamaClient.Qualify, retryDo, retryLoop, ollamaClient.qualifyAttempt, h0, hs,
      containsType]
  · have h0 := hparsed 0 (by omega)
    have h1 := hparsed 1 (by omega)
    have hs0 : s 0 < 4 := hlow 0 (by omega)
    have hs : ¬ (s 1 < 4) := by omega
    simp [ollamaClient.Qualify, retryDo, retryLoop, ollamaClient.qualifyAttempt, h0, h1, hs0, hs,
      containsType]
  · have h0 := hparsed 0 (by omega)
    have h1 := hparsed 1 (by omega)
    have h2 := hparsed 2 (by omega)
    have hs0 : s 0 < 4 := hlow 0 (by omega)
    have hs1 : s 1 < 4 := hlow 1 (by omega)
    by_cases hs : s 2 < 4
    · simp [ollamaClient.Qualify, retryDo, retryLoop, ollamaClient.qualifyAttempt, h0, h1, h2, hs0, hs1,
        hs, hct]
    · simp [ollamaClient.Qualify, retryDo, retryLoop, ollamaClient.qualifyAttempt, h0, h1, h2, hs0, hs1,
        hs, containsType]

/-- Go method `openaiClient.Qualify` on attempts that parse: with the attempts up to the
`k`-th parsed, those before it below 4, and the `k`-th at least 4 or the third
one, the gate makes `k + 1` attempts and returns the `k`-th score and `nil`. -/
theorem openaiQualify_stops_at (w : Nat → OpenAIQualityAttempt) (s : Nat → Int) (k : Nat) (hk : k < 3)
    (hparsed : ∀ n, n ≤ k → w n = .atoi (s n) none)
    (hlow : ∀ n, n < k → s n < 4)
    (hstop : 4 ≤ s k ∨ k = 2) :
    openaiClient.Qualify w = ⟨s k, none, k + 1⟩ := by
  have hct : ∀ l : List GoError,
      containsType (some (errTryQualityAgain :: l)) errTryQualityAgain = true := by
    intro l
    simp [containsType]
  interval_cases k
  · have h0 := hparsed 0 (by omega)
    have hs : ¬ (s 0 < 4) := by omega
    simp [openaiClient.Qualify, retryDo, retryLoop, openaiClient.qualifyAttempt, h0, hs,
      containsType]
  · have h0 := hparsed 0 (by omega)
    have h1 := hparsed 1 (by omega)
    have hs0 : s 0 < 4 := hlow 0 (by omega)
    have hs : ¬ (s 1 < 4) := by omega
    simp [openaiClient.Qualify, retryDo, retryLoop, openaiClient.qualifyAttempt, h0, h1, hs0, hs,
      containsType]
  · have h0 := hparsed 0 (by omega)
    have h1 := hparsed 1 (by omega)
    have h2 := hparsed 2 (by omega)
    have hs0 : s 0 < 4 := hlow 0 (by omega)
    have hs1 : s 1 < 4 := hlow 1 (by omega)
    by_cases hs : s 2 < 4
    · simp [openaiClient.Qualify, retryDo, retryLoop, openaiClient.qualifyAttempt, h0, h1, h2, hs0, hs1,
        hs, hct]
    · simp [openaiClient.Qualify, retryDo, retryLoop, openaiClient.qualifyAttempt, h0, h1, h2, hs0, hs1,
        hs, containsType]

/-- C8. In both clients: when the attempts up to the `k`-th (`k < 3`) all
parse as integers, those before it are below 4, and the `k`-th is 4 or more or
is the third one, `Qualify` makes exactly `k + 1` attempts and returns the
`k`-th score with a nil error.  So three scores below 4 give 3 attempts and the
last score, and a score of 4 or more after only low scores stops the gate. -/
theorem qualify_returns_last_score (wq : Nat → OllamaQualityAttempt)
    (wo : Nat → OpenAIQualityAttempt) (s : Nat → Int) (k : Nat) (hk : k < 3)
    (hparsed : ∀ n, n ≤ k → wq n = .atoi (s n) none ∧ wo n = .atoi (s n) none)
    (hlow : ∀ n, n < k → s n < 4)
    (hstop : 4 ≤ s k ∨ k = 2) :
    ollamaClient.Qualify wq = ⟨s k, none, k + 1⟩ ∧
    openaiClient.Qualify wo = ⟨s k, none, k + 1⟩ :=
  ⟨ollamaQualify_stops_at wq s k hk (fun n hn => (hparsed n hn).1) hlow hstop,
    openaiQualify_stops_at wo s k hk (fun n hn => (hparsed n hn).2) hlow hstop⟩

/-- Witness for C8: the scores 2, 3, 1, all below 4. -/
theorem qualify_returns_last_score_witness :
    ollamaClient.Qualify (fun n => .atoi ([2, 3, 1].getD n 0) none) = ⟨1, none, 3⟩ ∧
    openaiClient.Qualify (fun n => .atoi ([2, 3, 1].getD n 0) none) = ⟨1, none, 3⟩ :=
  qualify_returns_last_score (fun n => .atoi ([2, 3, 1].getD n 0) none)
    (fun n => .atoi ([2, 3, 1].getD n 0) none) (fun n => [2, 3, 1].getD n 0) 2 (by decide)
    (fun _ _ => ⟨rfl, rfl⟩) (by decide) (Or.inr rfl)

/-- C6, as stated, fails.  The three attempts parse as 3, 2 and 1: both clients
return 1 with a nil error, while the maximum of the scores observed is 3. -/
theorem qualify_not_best_score :
    ollamaClient.Qualify (fun n => .atoi ([3, 2, 1].getD n 0) none) = ⟨1, none, 3⟩ ∧
    openaiClient.Qualify (fun n => .atoi ([3, 2, 1].getD n 0) none) = ⟨1, none, 3⟩ ∧
    maxScore [3, 2, 1] = some 3 := by
  decide

/-- C6, amended. In both clients, when every attempt that is made (one that
follows only scores below 4) parses as an integer, the `n`-th as `s n`,
`Qualify` returns a nil error and the score of the last attempt it made, all
earlier attempts having scored below 4; it stops before the third attempt only
on a score of 4 or more; and when the returned score is 4 or more it is the
maximum of the scores observed. -/
theorem qualify_last_score_observed (wq : Nat → OllamaQualityAttempt)
    (wo : Nat → OpenAIQualityAttempt) (s : Nat → Int)
    (hparsed : ∀ n, n < 3 → (∀ j, j < n → s j < 4) →
      wq n = .atoi (s n) none ∧ wo n = .atoi (s n) none) :
    ∃ k, k < 3 ∧
      ollamaClient.Qualify wq = ⟨s k, none, k + 1⟩ ∧
      openaiClient.Qualify wo = ⟨s k, none, k + 1⟩ ∧
      (∀ n, n < k → s n < 4) ∧
      (k < 2 → 4 ≤ s k) ∧
      (4 ≤ s k → ∀ n, n ≤ k → s n ≤ s k) := by
  have hmax : ∀ k, (∀ n, n < k → s n < 4) → 4 ≤ s k → ∀ n, n ≤ k → s n ≤ s k := by
    intro k hl h4 n hn
    rcases Nat.lt_or_eq_of_le hn with h | h
    · have := hl n h; omega
    · rw [h]
  have hk : ∃ k, k < 3 ∧ (∀ n, n < k → s n < 4) ∧ (4 ≤ s k ∨ k = 2) := by
    by_cases h0 : s 0 < 4
    · by_cases h1 : s 1 < 4
      · refine ⟨2, by omega, ?_, Or.inr rfl⟩
        intro n hn
        interval_cases n
        · exact h0
        · exact h1
      · refine ⟨1, by omega, ?_, Or.inl (by omega)⟩
        intro n hn
        interval_cases n
        exact h0
    · exact ⟨0, by omega, fun n hn => absurd hn (Nat.not_lt_zero n), Or.inl (by omega)⟩
  obtain ⟨k, hk3, hlow, hstop⟩ := hk
  have hall : ∀ n, n ≤ k → wq n = .atoi (s n) none ∧ wo n = .atoi (s n) none :=
    fun n hn => hparsed n (by omega) (fun j hj => hlow j (by omega))
  have hmain : ollamaClient.Qualify wq = ⟨s k, none, k + 1⟩ ∧
      openaiClient.Qualify wo = ⟨s k, none, k + 1⟩ :=
    ⟨ollamaQualify_stops_at wq s k hk3 (fun n hn => (hall n hn).1) hlow hstop,
      openaiQualify_stops_at wo s k hk3 (fun n hn => (hall n hn).2) hlow hstop⟩
  refine ⟨k, hk3, hmain.1, hmain.2, hlow, ?_, hmax k hlow⟩
  intro hk2
  rcases hstop with h | h
  · exact h
  · omega

/-- Witness for the amended C6: the scores 3, 5, 1. -/
theorem qualify_last_score_observed_witness :
    ∃ k, k < 3 ∧
      ollamaClient.Qualify (fun n => .atoi ([3, 5, 1].getD n 0) none)
        = ⟨[3, 5, 1].getD k 0, none, k + 1⟩ ∧
      openaiClient.Qualify (fun n => .atoi ([3, 5, 1].getD n 0) none)
        = ⟨[3, 5, 1].getD k 0, none, k + 1⟩ ∧
      (∀ n, n < k → [3, 5, 1].getD n (0 : Int) < 4) ∧
      (k < 2 → 4 ≤ [3, 5, 1].getD k (0 : Int)) ∧
      (4 ≤ [3, 5, 1].getD k (0 : Int) → ∀ n, n ≤ k →
        [3, 5, 1].getD n (0 : Int) ≤ [3, 5, 1].getD k 0) :=
  qualify_last_score_observed (fun n => .atoi ([3, 5, 1].getD n 0) none)
    (fun n => .atoi ([3, 5, 1].getD n 0) none) (fun n => [3, 5, 1].getD n 0)
    (fun _ _ _ => ⟨rfl, rfl⟩)

/-- C7 fails on the code.  First attempt: the score 2.  Second and third
attempts: the transport fails with an error of another type.  The last attempt
made ends in a hard error, yet `Qualify` returns 2 with a nil error, in both
clients; and `Classify` returns the multi-word label of its first attempt with
a nil error after four transport failures.  An OpenAI response without choices
at every attempt, a hard error of the same dynamic type as the retry signal, is
returned as score 0 with a nil error. -/
theorem gate_swallows_hard_error (caseTable : Char → Char) :
    ollamaClient.Qualify (fun n => if n = 0 then .atoi 2 none
      else .transport connectionRefused) = ⟨2, none, 3⟩ ∧
    openaiClient.Qualify (fun n => if n = 0 then .atoi 2 none
      else .transport connectionRefused) = ⟨2, none, 3⟩ ∧
    openaiClient.Classify caseTable (fun n => if n = 0 then .response "mountain lion".toList
      else .transport connectionRefused)
      = ⟨"mountain lion".toList, none, 5⟩ ∧
    openaiClient.Qualify (fun _ => .noChoices) = ⟨0, none, 3⟩ :=
  ⟨by decide, by decide, rfl, by decide⟩

/-! ## The label gate -/

/-- C9. The normalization `Classify` applies to a raw response,
`strings.ToLower(strings.TrimSpace(s))`, is idempotent, for every case table of
`unicode.ToLower` that maps a rune above ASCII to a rune that lower-casing
leaves fixed, and never maps a rune that is not white space to white space. -/
theorem normalize_idempotent (caseTable : Char → Char)
    (hfix : ∀ c, 0x7F < c.toNat → unicodeToLower caseTable (caseTable c) = caseTable c)
    (hspace : ∀ c, 0x7F < c.toNat → unicodeIsSpace c = false →
      unicodeIsSpace (caseTable c) = false)
    (s : GoString) :
    normalize caseTable (normalize caseTable s) = normalize caseTable s := by
  obtain ⟨hhead, hlast⟩ := stringsTrimSpace_ends s
  have htrim : stringsTrimSpace (normalize caseTable s) = normalize caseTable s := by
    apply stringsTrimSpace_eq_self
    · intro c rest hc
      unfold normalize stringsToLower at hc
      cases hy : stringsTrimSpace s with
      | nil => rw [hy] at hc; simp at hc
      | cons d tl =>
        rw [hy] at hc
        simp only [List.map_cons, List.cons.injEq] at hc
        rw [← hc.1]
        exact unicodeToLower_not_space caseTable hspace d (hhead d tl hy)
    · intro h
      have hne : stringsTrimSpace s ≠ [] := by
        intro hnil
        apply h
        simp [normalize, stringsToLower, hnil]
      have hmap : (normalize caseTable s).getLast h
          = unicodeToLower caseTable ((stringsTrimSpace s).getLast hne) := by
        simp only [normalize, stringsToLower]
        exact List.getLast_map _ _ _
      rw [hmap]
      exact unicodeToLower_not_space caseTable hspace _ (hlast hne)
  show stringsToLower caseTable (stringsTrimSpace (normalize caseTable s)) = normalize caseTable s
  rw [htrim]
  simp only [normalize, stringsToLower, List.map_map]
  apply List.map_congr_left
  intro c _
  exact unicodeToLower_idem caseTable hfix c

/-- Witness for C9: the table that lower-cases U+00C9 and
nothing else, on a response with surrounding blanks and capitals. -/
theorem normalize_idempotent_witness :
    normalize sampleCaseTable (normalize sampleCaseTable [' ', Char.ofNat 0xC9, 'L', 'K', ' '])
      = normalize sampleCaseTable [' ', Char.ofNat 0xC9, 'L', 'K', ' '] :=
  normalize_idempotent sampleCaseTable
    (fun c hc => by
      by_cases h : c.toNat = 0xC9
      · have ht : sampleCaseTable c = Char.ofNat 0xE9 := by simp [sampleCaseTable, h]
        rw [ht]
        decide
      · have ht : sampleCaseTable c = c := by simp [sampleCaseTable, h]
        rw [ht]
        unfold unicodeToLower
        rw [if_neg (by omega), ht])
    (fun c _ hs => by
      by_cases h : c.toNat = 0xC9
      · have ht : sampleCaseTable c = Char.ofNat 0xE9 := by simp [sampleCaseTable, h]
        rw [ht]
        decide
      · have ht : sampleCaseTable c = c := by simp [sampleCaseTable, h]
        rw [ht]
        exact hs)
    [' ', Char.ofNat 0xC9, 'L', 'K', ' ']

/-- C5 fails on the code.  `Classify` normalizes with
`strings.ToLower(strings.TrimSpace(..))` only: surrounding white space goes and
a mismatched quote pair stays, but so do a trailing period and a layer of
matching quotes, and the gate returns such a label at its first attempt. -/
theorem normalize_keeps_quotes_and_period (caseTable : Char → Char) :
    normalize caseTable "deer.".toList = "deer.".toList ∧
    normalize caseTable ([dquote] ++ "deer".toList ++ [dquote])
      = [dquote] ++ "deer".toList ++ [dquote] ∧
    normalize caseTable ([squote] ++ "deer".toList ++ [squote])
      = [squote] ++ "deer".toList ++ [squote] ∧
    normalize caseTable ([dquote] ++ "deer.".toList ++ [dquote])
      = [dquote] ++ "deer.".toList ++ [dquote] ∧
    normalize caseTable ("  ".toList ++ [dquote] ++ "deer".toList ++ [dquote] ++ "  ".toList)
      = [dquote] ++ "deer".toList ++ [dquote] ∧
    normalize caseTable [dquote, dquote] = [dquote, dquote] ∧
    normalize caseTable ([dquote] ++ "deer".toList ++ [squote])
      = [dquote] ++ "deer".toList ++ [squote] ∧
    ollamaClient.Classify caseTable (fun _ => .response "deer.".toList)
      = ⟨"deer.".toList, none, 1⟩ ∧
    openaiClient.Classify caseTable (fun _ => .response "deer.".toList)
      = ⟨"deer.".toList, none, 1⟩ :=
  ⟨rfl, rfl, rfl, rfl, rfl, rfl, rfl, rfl, rfl⟩

/-- A string with a space is cut by `strings.Split(s, " ")` into more than one piece. -/
theorem stringsSplit_of_space (x : GoString) : 1 ≤ (stringsSplit x).length ∧
    (' ' ∈ x → 1 < (stringsSplit x).length) := by
  induction x with
  | nil => simp [stringsSplit]
  | cons c cs ih =>
    by_cases hc : c = ' '
    · simp only [stringsSplit, hc, if_true, List.length_cons]
      exact ⟨by omega, fun _ => by omega⟩
    · simp only [stringsSplit, hc, if_false]
      cases hsp : stringsSplit cs with
      | nil => rw [hsp] at ih; simp at ih
      | cons piece pieces =>
        rw [hsp] at ih
        simp only [List.length_cons] at ih ⊢
        refine ⟨by omega, fun hmem => ?_⟩
        rcases List.mem_cons.mp hmem with h | h
        · exact absurd h.symm hc
        · exact ih.2 h

/-- A label that passes the checks of the `Classify` closures has no space. -/
theorem classifyCheck_none (x : GoString) (h : classifyCheck x = none) : ' ' ∉ x := by
  intro hsp
  have := (stringsSplit_of_space x).2 hsp
  simp [classifyCheck, this] at h

/-- The loop of `retry.Do`, for a closure whose error does not depend on the
captured state: a nil result comes from an attempt that returned nil; a non-nil
result means every attempt was made and failed; and the final state is the
initial one or was set by one of the attempts. -/
theorem retryLoop_spec {σ : Type} (f : Nat → σ → σ × Option GoError)
    (Good : σ → Prop) (Src : Nat → σ → Prop)
    (hok : ∀ j s, (f j s).2 = none → Good (f j s).1)
    (herr : ∀ j s s0, (f j s).2 ≠ none → (f j s0).2 ≠ none)
    (hstate : ∀ j s, (f j s).1 = s ∨ Src j (f j s).1) :
    ∀ (k n : Nat) (s : σ) (errorLog : List GoError),
      ((retryLoop f k n s errorLog).err = none → Good (retryLoop f k n s errorLog).state) ∧
      ((retryLoop f k n s errorLog).err ≠ none →
        (retryLoop f k n s errorLog).calls = n + k ∧
        ∀ j, n ≤ j → j < n + k → ∀ s0, (f j s0).2 ≠ none) ∧
      ((retryLoop f k n s errorLog).state = s ∨
        ∃ j, n ≤ j ∧ j < n + k ∧ Src j (retryLoop f k n s errorLog).state) := by
  intro k
  induction k with
  | zero =>
    intro n s errorLog
    refine ⟨fun h => by simp [retryLoop] at h, fun _ => ⟨rfl, fun j h1 h2 => by omega⟩,
      Or.inl rfl⟩
  | succ k ih =>
    intro n s errorLog
    have hst := hstate n s
    have hgood := hok n s
    have hbad := herr n s
    rcases hfn : f n s with ⟨s', e⟩
    rw [hfn] at hst hgood hbad
    cases e with
    | none =>
      simp only [retryLoop, hfn]
      refine ⟨fun _ => hgood rfl, fun h => absurd rfl h, ?_⟩
      rcases hst with h | h
      · exact Or.inl h
      · exact Or.inr ⟨n, le_refl n, by omega, h⟩
    | some e =>
      simp only [retryLoop, hfn]
      obtain ⟨h1, h2, h3⟩ := ih (n + 1) s' (errorLog ++ [e])
      refine ⟨h1, fun h => ?_, ?_⟩
      · obtain ⟨hc, hall⟩ := h2 h
        refine ⟨by omega, fun j hj1 hj2 s0 => ?_⟩
        rcases Nat.lt_or_ge n j with hlt | hge
        · exact hall j hlt (by omega) s0
        · have hjn : j = n := by omega
          rw [hjn]
          exact hbad s0 (by simp)
      · rcases h3 with h | ⟨j, hj1, hj2, hj3⟩
        · rw [h]
          rcases hst with h' | h'
          · exact Or.inl h'
          · exact Or.inr ⟨n, le_refl n, by omega, h'⟩
        · exact Or.inr ⟨j, by omega, by omega, hj3⟩

/-- Every key of the map at the end of the frame loop was there at the start or
is the label `Classify` returned, with a nil error, for one of the frames. -/
theorem frameLoop_mem (fs : List FrameRun) :
    ∀ (q : Int) (m : List GoString) (q' : Int) (m' : List GoString),
      frameLoop fs q m = .finished q' m' →
      ∀ l, l ∈ m' → l ∈ m ∨ ∃ f, f ∈ fs ∧ f.classify = (l, none) := by
  induction fs with
  | nil =>
    intro q m q' m' h l hl
    simp only [frameLoop, LoopResult.finished.injEq] at h
    rw [← h.2] at hl
    exact Or.inl hl
  | cons f fs ih =>
    intro q m q' m' h l hl
    rw [frameLoop_cons] at h
    rcases f with ⟨d, ⟨fq, qe⟩, ⟨c, ce⟩⟩
    have lift : (l ∈ m ∨ ∃ g, g ∈ fs ∧ g.classify = (l, none)) →
        (l ∈ m ∨ ∃ g, g ∈ (⟨d, (fq, qe), (c, ce)⟩ : FrameRun) :: fs ∧ g.classify = (l, none)) := by
      rintro (hm | ⟨g, hg, hgc⟩)
      · exact Or.inl hm
      · exact Or.inr ⟨g, List.mem_cons_of_mem _ hg, hgc⟩
    cases d
    · cases qe with
      | some e => simp at h
      | none =>
        by_cases hlow : fq < 3
        · simp only [hlow, if_true, Bool.false_eq_true, if_false] at h
          exact lift (ih _ _ _ _ h l hl)
        · cases ce with
          | some e => simp [hlow] at h
          | none =>
            simp only [hlow, if_false, Bool.false_eq_true] at h
            split at h
            · rcases ih _ _ _ _ h l hl with hm | hex
              · rcases (mem_mapSet m c l).mp hm with hm' | hlc
                · exact Or.inl hm'
                · refine Or.inr ⟨_, List.mem_cons_self _ fs, ?_⟩
                  rw [hlc]
              · exact lift (Or.inr hex)
            · exact lift (ih _ _ _ _ h l hl)
    · simp at h

/-- Go method `ollamaClient.Classify`: the label returned is empty or the
normalized response of one of the 5 attempts, and it has a space only when all
5 attempts were made and failed. -/
theorem ollamaClassify_label (t : Char → Char) (w : Nat → OllamaClassAttempt) :
    ((ollamaClient.Classify t w).retv = [] ∨
      ∃ j, j < 5 ∧ ∃ text, w j = .response text ∧
        (ollamaClient.Classify t w).retv = normalize t text) ∧
    (' ' ∈ (ollamaClient.Classify t w).retv →
      (ollamaClient.Classify t w).calls = 5 ∧
      ∀ j, j < 5 → ∀ retv, (ollamaClient.classifyAttempt t (w j) retv).2 ≠ none) := by
  have hspec := retryLoop_spec (fun n retv => ollamaClient.classifyAttempt t (w n) retv)
    (fun x => ' ' ∉ x) (fun j x => ∃ text, w j = .response text ∧ x = normalize t text)
    (by
      intro j s h
      cases hw : w j with
      | transport e => simp [ollamaClient.classifyAttempt, hw] at h
      | response text =>
        simp only [ollamaClient.classifyAttempt, hw] at h ⊢
        exact classifyCheck_none _ h)
    (by
      intro j s s0 h
      cases hw : w j with
      | transport e => simp [ollamaClient.classifyAttempt, hw]
      | response text =>
        simp only [ollamaClient.classifyAttempt, hw] at h ⊢
        exact h)
    (by
      intro j s
      cases hw : w j with
      | transport e => exact Or.inl (by simp [ollamaClient.classifyAttempt, hw])
      | response text => exact Or.inr ⟨text, hw, by simp [ollamaClient.classifyAttempt, hw]⟩)
    5 0 [] []
  obtain ⟨h1, h2, h3⟩ := hspec
  have hretv : (ollamaClient.Classify t w).retv
      = (retryLoop (fun n retv => ollamaClient.classifyAttempt t (w n) retv) 5 0 [] []).state :=
    rfl
  have hcalls : (ollamaClient.Classify t w).calls
      = (retryLoop (fun n retv => ollamaClient.classifyAttempt t (w n) retv) 5 0 [] []).calls :=
    rfl
  rw [hretv, hcalls]
  refine ⟨?_, fun hsp => ?_⟩
  · rcases h3 with h | ⟨j, _, hj, hsrc⟩
    · exact Or.inl h
    · exact Or.inr ⟨j, by omega, hsrc⟩
  · have herr : (retryLoop (fun n retv => ollamaClient.classifyAttempt t (w n) retv)
        5 0 [] []).err ≠ none := fun hnone => h1 hnone hsp
    obtain ⟨hc, hall⟩ := h2 herr
    exact ⟨by omega, fun j hj retv => hall j (Nat.zero_le j) (by omega) retv⟩

/-- Go method `openaiClient.Classify`: the label returned is empty or the
normalized response of one of the 5 attempts, and it has a space only when all
5 attempts were made and failed. -/
theorem openaiClassify_label (t : Char → Char) (w : Nat → OpenAIClassAttempt) :
    ((openaiClient.Classify t w).retv = [] ∨
      ∃ j, j < 5 ∧ ∃ text, w j = .response text ∧
        (openaiClient.Classify t w).retv = normalize t text) ∧
    (' ' ∈ (openaiClient.Classify t w).retv →
      (openaiClient.Classify t w).calls = 5 ∧
      ∀ j, j < 5 → ∀ retv, (openaiClient.classifyAttempt t (w j) retv).2 ≠ none) := by
  have hspec := retryLoop_spec (fun n retv => openaiClient.classifyAttempt t (w n) retv)
    (fun x => ' ' ∉ x) (fun j x => ∃ text, w j = .response text ∧ x = normalize t text)
    (by
      intro j s h
      cases hw : w j with
      | transport e => simp [openaiClient.classifyAttempt, hw] at h
      | noChoices => simp [openaiClient.classifyAttempt, hw] at h
      | response text =>
        simp only [openaiClient.classifyAttempt, hw] at h ⊢
        exact classifyCheck_none _ h)
    (by
      intro j s s0 h
      cases hw : w j with
      | transport e => simp [openaiClient.classifyAttempt, hw]
      | noChoices => simp [openaiClient.classifyAttempt, hw]
      | response text =>
        simp only [openaiClient.classifyAttempt, hw] at h ⊢
        exact h)
    (by
      intro j s
      cases hw : w j with
      | transport e => exact Or.inl (by simp [openaiClient.classifyAttempt, hw])
      | noChoices => exact Or.inl (by simp [openaiClient.classifyAttempt, hw])
      | response text => exact Or.inr ⟨text, hw, by simp [openaiClient.classifyAttempt, hw]⟩)
    5 0 [] []
  obtain ⟨h1, h2, h3⟩ := hspec
  have hretv : (openaiClient.Classify t w).retv
      = (retryLoop (fun n retv => openaiClient.classifyAttempt t (w n) retv) 5 0 [] []).state :=
    rfl
  have hcalls : (openaiClient.Classify t w).calls
      = (retryLoop (fun n retv => openaiClient.classifyAttempt t (w n) retv) 5 0 [] []).calls :=
    rfl
  rw [hretv, hcalls]
  refine ⟨?_, fun hsp => ?_⟩
  · rcases h3 with h | ⟨j, _, hj, hsrc⟩
    · exact Or.inl h
    · exact Or.inr ⟨j, by omega, hsrc⟩
  · have herr : (retryLoop (fun n retv => openaiClient.classifyAttempt t (w n) retv)
        5 0 [] []).err ≠ none := fun hnone => h1 hnone hsp
    obtain ⟨hc, hall⟩ := h2 herr
    exact ⟨by omega, fun j hj retv => hall j (Nat.zero_le j) (by omega) retv⟩

/-- C3, as stated, fails.  A still image whose only frame scores 4 and whose
five classification attempts all answer "mountain lion" (plain ASCII, so the
case table plays no part): `Classify` returns the two-word label with a nil
error in both clients, the frame loop inserts it, and the file is moved to a
directory whose name contains a space. -/
theorem multiword_label_reaches_set :
    ollamaClient.Classify sampleCaseTable (fun _ => .response "mountain lion".toList)
      = ⟨"mountain lion".toList, none, 5⟩ ∧
    openaiClient.Classify sampleCaseTable (fun _ => .response "mountain lion".toList)
      = ⟨"mountain lion".toList, none, 5⟩ ∧
    frameLoop [ollamaFrame sampleCaseTable (fun _ => .atoi 4 none)
      (fun _ => .response "mountain lion".toList)] 0 [] = .finished 4 ["mountain lion".toList] ∧
    frameLoop [openaiFrame sampleCaseTable (fun _ => .atoi 4 none)
      (fun _ => .response "mountain lion".toList)] 0 [] = .finished 4 ["mountain lion".toList] ∧
    processEntry ⟨false, false, ".jpg".toList,
      some (ollamaFrame sampleCaseTable (fun _ => .atoi 4 none)
        (fun _ => .response "mountain lion".toList)), true, fun _ => none⟩ id
      = .routed .detected [.move "mountain lion".toList] ∧
    ' ' ∈ "mountain lion".toList := by
  decide

/-- C3, amended. When the frame loop of `processEntry` finishes, every member
`l` of the detected-animal set is the label `Classify` returned with a nil
error for one of the frames; whichever client and responses produced that
result, `l` is the normalized (trimmed, lower-cased) response of one of the 5
attempts, and `l` contains a space only if that call made all 5 attempts and
every one of them ended in an error. -/
theorem label_spaced_only_on_exhaustion (caseTable : Char → Char) (frames : List FrameRun)
    (q : Int) (m : List GoString) (hfin : frameLoop frames 0 [] = .finished q m)
    (l : GoString) (hl : l ∈ m) :
    ∃ f, f ∈ frames ∧ f.classify = (l, none) ∧
      (∀ w : Nat → OllamaClassAttempt,
        f.classify = ((ollamaClient.Classify caseTable w).retv,
          (ollamaClient.Classify caseTable w).err) →
        (∃ j, j < 5 ∧ ∃ text, w j = .response text ∧ l = normalize caseTable text) ∧
        (' ' ∈ l → (ollamaClient.Classify caseTable w).calls = 5 ∧
          ∀ j, j < 5 → ∀ retv, (ollamaClient.classifyAttempt caseTable (w j) retv).2 ≠ none)) ∧
      (∀ w : Nat → OpenAIClassAttempt,
        f.classify = ((openaiClient.Classify caseTable w).retv,
          (openaiClient.Classify caseTable w).err) →
        (∃ j, j < 5 ∧ ∃ text, w j = .response text ∧ l = normalize caseTable text) ∧
        (' ' ∈ l → (openaiClient.Classify caseTable w).calls = 5 ∧
          ∀ j, j < 5 → ∀ retv, (openaiClient.classifyAttempt caseTable (w j) retv).2 ≠ none)) := by
  have hne : l ≠ [] := by
    have hinv := frameLoop_invariant (fun _ m => [] ∉ m) (fun _ _ _ hP => hP)
      (fun _ m _ c hP _ hc _ _ hmem => by
        rcases (mem_mapSet m c []).mp hmem with h | h
        · exact hP h
        · exact hc h.symm)
      frames 0 [] q m (by simp) hfin
    intro h
    rw [h] at hl
    exact hinv hl
  rcases frameLoop_mem frames 0 [] q m hfin l hl with h | ⟨f, hf, hfc⟩
  · simp at h
  · refine ⟨f, hf, hfc, ?_, ?_⟩
    · intro w hw
      rw [hfc] at hw
      have hretv : (ollamaClient.Classify caseTable w).retv = l := (congrArg Prod.fst hw).symm
      obtain ⟨h1, h2⟩ := ollamaClassify_label caseTable w
      rw [hretv] at h1 h2
      refine ⟨?_, h2⟩
      rcases h1 with h | h
      · exact absurd h hne
      · exact h
    · intro w hw
      rw [hfc] at hw
      have hretv : (openaiClient.Classify caseTable w).retv = l := (congrArg Prod.fst hw).symm
      obtain ⟨h1, h2⟩ := openaiClassify_label caseTable w
      rw [hretv] at h1 h2
      refine ⟨?_, h2⟩
      rcases h1 with h | h
      · exact absurd h hne
      · exact h

/-- Witness for the amended C3: the still image whose five classification
attempts all answer "mountain lion". -/
theorem label_spaced_only_on_exhaustion_witness :
    ∃ f, f ∈ [ollamaFrame sampleCaseTable (fun _ => .atoi 4 none)
        (fun _ => .response "mountain lion".toList)] ∧
      f.classify = ("mountain lion".toList, none) ∧
      (∀ w : Nat → OllamaClassAttempt,
        f.classify = ((ollamaClient.Classify sampleCaseTable w).retv,
          (ollamaClient.Classify sampleCaseTable w).err) →
        (∃ j, j < 5 ∧ ∃ text, w j = .response text ∧
          "mountain lion".toList = normalize sampleCaseTable text) ∧
        (' ' ∈ "mountain lion".toList → (ollamaClient.Classify sampleCaseTable w).calls = 5 ∧
          ∀ j, j < 5 → ∀ retv,
            (ollamaClient.classifyAttempt sampleCaseTable (w j) retv).2 ≠ none)) ∧
      (∀ w : Nat → OpenAIClassAttempt,
        f.classify = ((openaiClient.Classify sampleCaseTable w).retv,
          (openaiClient.Classify sampleCaseTable w).err) →
        (∃ j, j < 5 ∧ ∃ text, w j = .response text ∧
          "mountain lion".toList = normalize sampleCaseTable text) ∧
        (' ' ∈ "mountain lion".toList → (openaiClient.Classify sampleCaseTable w).calls = 5 ∧
          ∀ j, j < 5 → ∀ retv,
            (openaiClient.classifyAttempt sampleCaseTable (w j) retv).2 ≠ none)) :=
  label_spaced_only_on_exhaustion sampleCaseTable
    [ollamaFrame sampleCaseTable (fun _ => .atoi 4 none)
      (fun _ => .response "mountain lion".toList)]
    4 ["mountain lion".toList] (by decide) "mountain lion".toList (by decide)

end Trailcamai
